import Mathlib

/-!
Shallow embedding of `hashcoin.py`, a Hashcash-style proof-of-work module.

Modelling conventions:

* A Python `bytes` object is a `List Nat` whose entries are < 256.
* The hash function (`Hashcoin.hash = hashlib.sha1` in the source) is kept
  abstract: every operation takes a parameter `H : List Nat → List Nat`
  together with the digest width `w`; the hypothesis
  `∀ m, (H m).length = w ∧ ∀ x ∈ H m, x < 256` models a fixed-width hash.
  The incremental pattern `data_hash.copy(); update(salt); digest()` equals
  hashing the concatenation, so a digest is `H (data ++ salt)`.
* Python floats: `percentile_digest` multiplies the float `percentile` by
  `max_digest_value + 1 = 2 ^ (8 * w)`, a power of two; multiplying a binary
  float by a power of two is exact (no mantissa rounding), so the float
  computation is modelled faithfully by exact rational arithmetic over `ℚ`
  (every float is a rational).  `int(...)` truncates toward zero (`pyInt`).
* `int.to_bytes(n, 'big')` raises `OverflowError` when the integer is
  negative or does not fit in `n` bytes; fallible operations return `Option`,
  `none` standing for the raised exception.
* The generators are observed through finite prefixes: a loop over the
  infinite salt stream is modelled by a loop over the first `n` salts.
-/

/-- Big-endian value of a byte string: `int.from_bytes(b, 'big')`
(the source's `intify`). -/
def intify (b : List Nat) : Nat :=
  b.foldl (fun acc x => 256 * acc + x) 0

/-- `v.to_bytes(w, 'big')` for `v < 256 ^ w`: the `w`-byte big-endian
encoding of `v`. -/
def to_bytes : Nat → Nat → List Nat
  | 0, _ => []
  | w + 1, v => to_bytes w (v / 256) ++ [v % 256]

/-- Python's lexicographic `<` on `bytes`. -/
def bytesLt : List Nat → List Nat → Bool
  | _, [] => false
  | [], _ :: _ => true
  | a :: as, b :: bs => if a < b then true else if b < a then false else bytesLt as bs

/-- Python's lexicographic `<=` on `bytes`. -/
def bytesLe : List Nat → List Nat → Bool
  | [], _ => true
  | _ :: _, [] => false
  | a :: as, b :: bs => if a < b then true else if b < a then false else bytesLe as bs

/-- Python's `int(x)` applied to an exact rational: truncation toward zero. -/
def pyInt (q : ℚ) : Int :=
  if 0 ≤ q.num then ((q.num.toNat / q.den : Nat) : Int)
  else -(((-q.num).toNat / q.den : Nat) : Int)

/-- The inner loop of `iter_bytes` for a fixed length `L` (also the body of
`byte_sequences`): all `L`-byte strings in increasing big-endian order. -/
def byte_strings (L : Nat) : List (List Nat) :=
  (List.range (256 ^ L)).map (to_bytes L)

/-- The first `L` rounds of `iter_bytes`' outer loop: every byte string of
length `< L`, shorter first, each length block in increasing order. -/
def iter_bytes_upto (L : Nat) : List (List Nat) :=
  ((List.range L).map byte_strings).flatten

/-- The salt at linear position `k` of the `iter_bytes` stream. -/
def nthSalt (k : Nat) : List Nat :=
  (iter_bytes_upto (k + 1)).getD k []

/-- The first `n` elements of the `iter_bytes` stream. -/
def firstSalts (n : Nat) : List (List Nat) :=
  (List.range n).map nthSalt

/-- The strict total order in which `iter_bytes` yields salts: shorter
strings first, strings of equal length by their big-endian value. -/
def saltRel (a b : List Nat) : Prop :=
  a.length < b.length ∨ (a.length = b.length ∧ intify a < intify b)

/-- The token type: `class Hashcoin(namedtuple('Hashcoin', ['data', 'salt']))`. -/
structure Hashcoin where
  data : List Nat
  salt : List Nat
deriving DecidableEq

/-- `Hashcoin.max_digest`: `width` bytes all `0xff`. -/
def Hashcoin.max_digest (w : Nat) : List Nat :=
  List.replicate w 255

/-- `Hashcoin.digest`: hash of `data ‖ salt`. -/
def Hashcoin.digest (H : List Nat → List Nat) (t : Hashcoin) : List Nat :=
  H (t.data ++ t.salt)

/-- `Hashcoin.percentile`: `intify(digest) / (intify(max_digest) + 1)`. -/
def Hashcoin.percentile (H : List Nat → List Nat) (w : Nat) (t : Hashcoin) : ℚ :=
  (intify (t.digest H) : ℚ) / ((intify (Hashcoin.max_digest w) : ℚ) + 1)

/-- `Hashcoin.percentile_digest`: `int(percentile * (max_digest_value + 1))`
encoded as `width` big-endian bytes; `none` models the `OverflowError` that
`to_bytes` raises on a negative or too-large value. -/
def Hashcoin.percentile_digest (w : Nat) (p : ℚ) : Option (List Nat) :=
  let max_digest_value : Nat := intify (Hashcoin.max_digest w)
  let v : Int := pyInt (p * ((max_digest_value : ℚ) + 1))
  if 0 ≤ v ∧ v < (256 : Int) ^ w then some (to_bytes w v.toNat) else none

/-- The loop body of `Hashcoin.in_percentile`: keep the salts whose digest
is lexicographically `<=` the precomputed ceiling. -/
def inPercentileLoop (H : List Nat → List Nat) (d md : List Nat) :
    List (List Nat) → List Hashcoin
  | [] => []
  | s :: rest =>
    if bytesLe (H (d ++ s)) md then
      Hashcoin.mk d s :: inPercentileLoop H d md rest
    else
      inPercentileLoop H d md rest

/-- `Hashcoin.in_percentile`, observed on the first `n` salts.  The ceiling
computation runs before any salt is examined; its failure (`none`) models
the exception escaping the generator. -/
def Hashcoin.in_percentile (H : List Nat → List Nat) (w : Nat) (p : ℚ)
    (d : List Nat) (n : Nat) : Option (List Hashcoin) :=
  match Hashcoin.percentile_digest w p with
  | none => none
  | some md => some (inPercentileLoop H d md (firstSalts n))

/-- `Hashcoin.new`: first element of `in_percentile`, observed on the first
`n` salts (`none` when the ceiling fails or no qualifying salt is found yet). -/
def Hashcoin.new (H : List Nat → List Nat) (w : Nat) (p : ℚ)
    (d : List Nat) (n : Nat) : Option Hashcoin :=
  match Hashcoin.in_percentile H w p d n with
  | none => none
  | some l => l.head?

/-- The loop of `Hashcoin.refine`: emit a token and lower the running
minimum exactly when the digest is strictly below it. -/
def refineLoop (H : List Nat → List Nat) (d min_digest : List Nat) :
    List (List Nat) → List Hashcoin
  | [] => []
  | s :: rest =>
    if bytesLt (H (d ++ s)) min_digest then
      Hashcoin.mk d s :: refineLoop H d (H (d ++ s)) rest
    else
      refineLoop H d min_digest rest

/-- `Hashcoin.refine`, observed on the first `n` salts. -/
def Hashcoin.refine (H : List Nat → List Nat) (w : Nat) (d : List Nat)
    (n : Nat) : List Hashcoin :=
  refineLoop H d (Hashcoin.max_digest w) (firstSalts n)

/-- The loop of `Hashcoin.best`: running minimum digest and its salt. -/
def bestLoop (H : List Nat → List Nat) (d min_digest min_salt : List Nat) :
    List (List Nat) → Hashcoin
  | [] => Hashcoin.mk d min_salt
  | s :: rest =>
    if bytesLt (H (d ++ s)) min_digest then
      bestLoop H d (H (d ++ s)) s rest
    else
      bestLoop H d min_digest min_salt rest

/-- `Hashcoin.best`: lowest-digest token among the first `n` salts
(`islice(cls.salts(), n)`). -/
def Hashcoin.best (H : List Nat → List Nat) (w n : Nat) (d : List Nat) : Hashcoin :=
  bestLoop H d (Hashcoin.max_digest w) [] (firstSalts n)

/-!
Model of the `reuse` decorator applied to `iter_bytes` (`Hashcoin.salts`).

All calls share one history list and one underlying generator (`resume` is
memoized on the empty argument tuple).  Every pull from the generator
immediately appends the pulled element, so the generator's position always
equals the history length `k`, and the history is always
`[nthSalt 0, …, nthSalt (k-1)]`.  A consumer produced by calling the
decorated function is either still replaying the history (`replay i`: its
list iterator stands at index `i`) or, once that list iterator has raised
`StopIteration`, pulling the shared generator directly (`live`).
-/
inductive RCursor where
  | replay : Nat → RCursor
  | live : RCursor
deriving DecidableEq

/-- One `next()` call on a consumer of the shared memoized salt stream:
returns the yielded salt, the consumer's new state, and the new history
length. -/
def rstep (k : Nat) : RCursor → List Nat × RCursor × Nat
  | RCursor.replay i =>
    if i < k then (nthSalt i, RCursor.replay (i + 1), k)
    else (nthSalt k, RCursor.live, k + 1)
  | RCursor.live => (nthSalt k, RCursor.live, k + 1)

/-- Pull `n` items from one consumer with no interleaved consumer activity. -/
def consumeAlone : Nat → RCursor → Nat → List (List Nat)
  | _, _, 0 => []
  | k, c, n + 1 =>
    (rstep k c).1 :: consumeAlone (rstep k c).2.2 (rstep k c).2.1 n

/-- Two consumers of the shared memoized salt stream and what each has
observed so far. -/
structure TwoConsumers where
  k : Nat
  a : RCursor
  b : RCursor
  outA : List (List Nat)
  outB : List (List Nat)
deriving DecidableEq

/-- Advance consumer `A` (`true`) or `B` (`false`) by one `next()` call. -/
def stepConsumer (s : TwoConsumers) (which : Bool) : TwoConsumers :=
  if which then
    { s with a := (rstep s.k s.a).2.1, k := (rstep s.k s.a).2.2,
             outA := s.outA ++ [(rstep s.k s.a).1] }
  else
    { s with b := (rstep s.k s.b).2.1, k := (rstep s.k s.b).2.2,
             outB := s.outB ++ [(rstep s.k s.b).1] }

/-- Run a schedule of interleaved `next()` calls on two fresh consumers of
the shared memoized salt stream. -/
def runSched (l : List Bool) : TwoConsumers :=
  l.foldl stepConsumer (TwoConsumers.mk 0 (RCursor.replay 0) (RCursor.replay 0) [] [])

/-- A fixed-width hash function: every digest has `w` bytes, each `< 256`
(the only structural requirement the spec places on the pluggable hash). -/
def HashGood (H : List Nat → List Nat) (w : Nat) : Prop :=
  ∀ m, (H m).length = w ∧ ∀ x ∈ H m, x < 256

/-- A tiny stand-in hash used to instantiate the abstract hash `H` in
concrete witness evaluations: one byte, the message length mod 256. -/
def toyHash (m : List Nat) : List Nat :=
  [m.length % 256]

/-! ### Arithmetic facts about `intify` and `to_bytes` -/

theorem intify_go (l : List Nat) (acc : Nat) :
    l.foldl (fun a x => 256 * a + x) acc = acc * 256 ^ l.length + intify l := by
  induction l generalizing acc with
  | nil => simp [intify]
  | cons x xs ih =>
    simp only [List.foldl_cons, List.length_cons, intify] at *
    rw [ih (256 * acc + x), ih (256 * 0 + x)]
    ring

theorem intify_cons (x : Nat) (l : List Nat) :
    intify (x :: l) = x * 256 ^ l.length + intify l := by
  have h := intify_go l x
  simpa [intify] using h

theorem intify_append_singleton (l : List Nat) (x : Nat) :
    intify (l ++ [x]) = 256 * intify l + x := by
  simp [intify, List.foldl_append]

theorem intify_lt (l : List Nat) (h : ∀ x ∈ l, x < 256) :
    intify l < 256 ^ l.length := by
  induction l with
  | nil => simp [intify]
  | cons x xs ih =>
    have hx : x < 256 := h x (by simp)
    have hxs : intify xs < 256 ^ xs.length := ih fun y hy => h y (by simp [hy])
    rw [intify_cons, List.length_cons, pow_succ]
    calc x * 256 ^ xs.length + intify xs
        < x * 256 ^ xs.length + 256 ^ xs.length := by omega
      _ = (x + 1) * 256 ^ xs.length := by ring
      _ ≤ 256 * 256 ^ xs.length := Nat.mul_le_mul_right _ (by omega)
      _ = 256 ^ xs.length * 256 := by ring

theorem to_bytes_length (w v : Nat) : (to_bytes w v).length = w := by
  induction w generalizing v with
  | zero => rfl
  | succ w ih => simp [to_bytes, ih]

theorem to_bytes_mem_lt (w v : Nat) : ∀ x ∈ to_bytes w v, x < 256 := by
  induction w generalizing v with
  | zero => simp [to_bytes]
  | succ w ih =>
    intro x hx
    simp only [to_bytes, List.mem_append, List.mem_singleton] at hx
    rcases hx with hx | hx
    · exact ih _ x hx
    · subst hx; exact Nat.mod_lt _ (by norm_num)

theorem intify_to_bytes (w v : Nat) (h : v < 256 ^ w) :
    intify (to_bytes w v) = v := by
  induction w generalizing v with
  | zero =>
    interval_cases v
    rfl
  | succ w ih =>
    have hdiv : v / 256 < 256 ^ w := by
      rw [Nat.div_lt_iff_lt_mul (by norm_num : 0 < 256)]
      calc v < 256 ^ (w + 1) := h
        _ = 256 ^ w * 256 := by ring
    rw [to_bytes, intify_append_singleton, ih _ hdiv]
    omega

theorem to_bytes_zero (w : Nat) : to_bytes w 0 = List.replicate w 0 := by
  induction w with
  | zero => rfl
  | succ w ih => rw [to_bytes, Nat.zero_div, Nat.zero_mod, ih, List.replicate_succ']

theorem to_bytes_intify (l : List Nat) (h : ∀ x ∈ l, x < 256) :
    to_bytes l.length (intify l) = l := by
  induction l using List.reverseRecOn with
  | nil => rfl
  | append_singleton xs x ih =>
    have hx : x < 256 := h x (by simp)
    have hxs : ∀ y ∈ xs, y < 256 := fun y hy => h y (by simp [hy])
    rw [intify_append_singleton, List.length_append, List.length_singleton, to_bytes]
    have hdiv : (256 * intify xs + x) / 256 = intify xs := by
      rw [Nat.mul_add_div (by norm_num : 0 < 256), Nat.div_eq_of_lt hx]
      omega
    have hmod : (256 * intify xs + x) % 256 = x := by
      rw [Nat.mul_add_mod, Nat.mod_eq_of_lt hx]
    rw [hdiv, hmod, ih hxs]

theorem intify_replicate_255 (w : Nat) :
    intify (List.replicate w 255) = 256 ^ w - 1 := by
  induction w with
  | zero => simp [intify]
  | succ w ih =>
    have hpos : 0 < 256 ^ w := Nat.pos_pow_of_pos w (by norm_num)
    rw [List.replicate_succ, intify_cons, List.length_replicate, ih, pow_succ]
    omega

theorem max_digest_value (w : Nat) :
    intify (Hashcoin.max_digest w) = 256 ^ w - 1 :=
  intify_replicate_255 w

/-! ### Lexicographic byte comparison versus big-endian numeric value -/

theorem digit_lt {x y r s B : Nat} (hr : r < B) (hxy : x < y) :
    x * B + r < y * B + s :=
  calc x * B + r < x * B + B := by omega
    _ = (x + 1) * B := by ring
    _ ≤ y * B := Nat.mul_le_mul_right B hxy
    _ ≤ y * B + s := Nat.le_add_right _ _

theorem bytesLt_iff_intify :
    ∀ a b : List Nat, a.length = b.length → (∀ x ∈ a, x < 256) →
      (∀ x ∈ b, x < 256) → (bytesLt a b = true ↔ intify a < intify b)
  | [], [], _, _, _ => by simp [bytesLt, intify]
  | [], _ :: _, hlen, _, _ => by simp at hlen
  | _ :: _, [], hlen, _, _ => by simp at hlen
  | x :: xs, y :: ys, hlen, ha, hb => by
    have hlen' : xs.length = ys.length := by simpa using hlen
    have hx : x < 256 := ha x (by simp)
    have hxs : ∀ z ∈ xs, z < 256 := fun z hz => ha z (by simp [hz])
    have hys : ∀ z ∈ ys, z < 256 := fun z hz => hb z (by simp [hz])
    have hxb : intify xs < 256 ^ xs.length := intify_lt xs hxs
    have hyb : intify ys < 256 ^ ys.length := intify_lt ys hys
    have hyb' : intify ys < 256 ^ xs.length := hlen' ▸ hyb
    rw [intify_cons, intify_cons, ← hlen']
    rcases Nat.lt_trichotomy x y with hxy | hxy | hxy
    · have hv : bytesLt (x :: xs) (y :: ys) = true := by simp [bytesLt, hxy]
      rw [hv]
      simp only [true_iff]
      exact digit_lt hxb hxy
    · subst hxy
      have hv : bytesLt (x :: xs) (x :: ys) = bytesLt xs ys := by simp [bytesLt]
      rw [hv, bytesLt_iff_intify xs ys hlen' hxs hys]
      omega
    · have hv : bytesLt (x :: xs) (y :: ys) = false := by
        simp [bytesLt, hxy, Nat.lt_asymm hxy]
      rw [hv]
      exact iff_of_false (by simp) (not_lt.mpr (le_of_lt (digit_lt hyb' hxy)))

theorem bytesLe_iff_intify :
    ∀ a b : List Nat, a.length = b.length → (∀ x ∈ a, x < 256) →
      (∀ x ∈ b, x < 256) → (bytesLe a b = true ↔ intify a ≤ intify b)
  | [], [], _, _, _ => by simp [bytesLe, intify]
  | [], _ :: _, hlen, _, _ => by simp at hlen
  | _ :: _, [], hlen, _, _ => by simp at hlen
  | x :: xs, y :: ys, hlen, ha, hb => by
    have hlen' : xs.length = ys.length := by simpa using hlen
    have hx : x < 256 := ha x (by simp)
    have hxs : ∀ z ∈ xs, z < 256 := fun z hz => ha z (by simp [hz])
    have hys : ∀ z ∈ ys, z < 256 := fun z hz => hb z (by simp [hz])
    have hxb : intify xs < 256 ^ xs.length := intify_lt xs hxs
    have hyb : intify ys < 256 ^ ys.length := intify_lt ys hys
    have hyb' : intify ys < 256 ^ xs.length := hlen' ▸ hyb
    rw [intify_cons, intify_cons, ← hlen']
    rcases Nat.lt_trichotomy x y with hxy | hxy | hxy
    · have hv : bytesLe (x :: xs) (y :: ys) = true := by simp [bytesLe, hxy]
      rw [hv]
      simp only [true_iff]
      exact le_of_lt (digit_lt hxb hxy)
    · subst hxy
      have hv : bytesLe (x :: xs) (x :: ys) = bytesLe xs ys := by simp [bytesLe]
      rw [hv, bytesLe_iff_intify xs ys hlen' hxs hys]
      omega
    · have hv : bytesLe (x :: xs) (y :: ys) = false := by
        simp [bytesLe, hxy, Nat.lt_asymm hxy]
      rw [hv]
      exact iff_of_false (by simp) (not_le.mpr (digit_lt hyb' hxy))

/-! ### Characterization of `pyInt` (Python `int()` truncation) -/

theorem pyInt_nonneg_spec (q : ℚ) (hq : 0 ≤ q) :
    0 ≤ pyInt q ∧ (pyInt q : ℚ) ≤ q ∧ q < pyInt q + 1 := by
  have hnum : 0 ≤ q.num := Rat.num_nonneg.mpr hq
  have hden : 0 < q.den := q.den_pos
  have hdenQ : (0 : ℚ) < (q.den : ℚ) := by exact_mod_cast hden
  have hqeq : ((q.num.toNat : ℚ)) / (q.den : ℚ) = q := by
    rw [show ((q.num.toNat : ℚ)) = ((q.num : ℚ)) from by
      exact_mod_cast congrArg Int.cast (Int.toNat_of_nonneg hnum)]
    exact Rat.num_div_den q
  have h1 : ((q.num.toNat / q.den : ℕ) : ℚ) ≤ (q.num.toNat : ℚ) / (q.den : ℚ) := by
    rw [le_div_iff₀ hdenQ]
    exact_mod_cast Nat.div_mul_le_self q.num.toNat q.den
  have h2 : (q.num.toNat : ℚ) / (q.den : ℚ) < ((q.num.toNat / q.den : ℕ) : ℚ) + 1 := by
    rw [div_lt_iff₀ hdenQ]
    have e2 : q.num.toNat % q.den < q.den := Nat.mod_lt _ hden
    have e3 : q.num.toNat < (q.num.toNat / q.den + 1) * q.den :=
      calc q.num.toNat = q.den * (q.num.toNat / q.den) + q.num.toNat % q.den :=
            (Nat.div_add_mod q.num.toNat q.den).symm
        _ < q.den * (q.num.toNat / q.den) + q.den := Nat.add_lt_add_left e2 _
        _ = (q.num.toNat / q.den + 1) * q.den := by ring
    exact_mod_cast e3
  rw [hqeq] at h1 h2
  rw [pyInt, if_pos hnum]
  refine ⟨Int.ofNat_nonneg _, ?_, ?_⟩
  · exact_mod_cast h1
  · exact_mod_cast h2

theorem pyInt_neg (q : ℚ) : pyInt (-q) = -pyInt q := by
  rw [pyInt, pyInt, Rat.neg_num, Rat.neg_den]
  rcases lt_trichotomy q.num 0 with h | h | h
  · rw [if_pos (by omega), if_neg (by omega)]
    simp
  · rw [if_pos (by omega), if_pos (by omega)]
    simp [h]
  · rw [if_neg (by omega), if_pos (by omega)]
    simp

theorem pyInt_unique (q : ℚ) (t : Int) (h0 : 0 ≤ t) (h1 : (t : ℚ) ≤ q)
    (h2 : q < t + 1) : pyInt q = t := by
  have hq : 0 ≤ q := le_trans (by exact_mod_cast h0) h1
  obtain ⟨g0, g1, g2⟩ := pyInt_nonneg_spec q hq
  have ha : (pyInt q : ℚ) < (t : ℚ) + 1 := lt_of_le_of_lt g1 h2
  have hb : (t : ℚ) < (pyInt q : ℚ) + 1 := lt_of_le_of_lt h1 g2
  have ha' : pyInt q < t + 1 := by exact_mod_cast ha
  have hb' : t < pyInt q + 1 := by exact_mod_cast hb
  omega

theorem pyInt_neg_small (q : ℚ) (h1 : -1 < q) (h2 : q ≤ 0) : pyInt q = 0 := by
  have : pyInt (-(-q)) = -pyInt (-q) := pyInt_neg (-q)
  rw [neg_neg] at this
  rw [this, pyInt_unique (-q) 0 le_rfl (by push_cast; linarith) (by push_cast; linarith)]
  simp

theorem pyInt_le_neg_one (q : ℚ) (h : q ≤ -1) : pyInt q ≤ -1 := by
  have hrw : pyInt (-(-q)) = -pyInt (-q) := pyInt_neg (-q)
  rw [neg_neg] at hrw
  have hq : 0 ≤ -q := by linarith
  obtain ⟨g0, g1, g2⟩ := pyInt_nonneg_spec (-q) hq
  have h1 : (1 : ℚ) ≤ -q := by linarith
  have hpos : (0 : ℚ) < (pyInt (-q) : ℚ) := by linarith
  have hpos' : 0 < pyInt (-q) := by exact_mod_cast hpos
  rw [hrw]
  omega

theorem pyInt_ge_of_ge (q : ℚ) (t : Int) (h0 : 0 ≤ t) (h : (t : ℚ) ≤ q) :
    t ≤ pyInt q := by
  have hq : 0 ≤ q := le_trans (by exact_mod_cast h0) h
  obtain ⟨g0, g1, g2⟩ := pyInt_nonneg_spec q hq
  have : (t : ℚ) < (pyInt q : ℚ) + 1 := lt_of_le_of_lt h g2
  have : t < pyInt q + 1 := by exact_mod_cast this
  omega

/-! ### Evaluating `percentile_digest` -/

theorem cast_max_digest_value (w : Nat) :
    ((intify (Hashcoin.max_digest w) : ℚ) + 1) = 256 ^ w := by
  rw [max_digest_value]
  have h1 : (1 : ℕ) ≤ 256 ^ w := Nat.one_le_pow _ _ (by norm_num)
  push_cast [Nat.cast_sub h1]
  ring

theorem percentile_digest_eq (w : Nat) (p : ℚ) :
    Hashcoin.percentile_digest w p =
      (if 0 ≤ pyInt (p * 256 ^ w) ∧ pyInt (p * 256 ^ w) < (256 : Int) ^ w
       then some (to_bytes w (pyInt (p * 256 ^ w)).toNat) else none) := by
  simp only [Hashcoin.percentile_digest, cast_max_digest_value]

theorem pyInt_mul_pow_lt (w : Nat) (p : ℚ) (hp0 : 0 ≤ p) (hp1 : p < 1) :
    0 ≤ pyInt (p * 256 ^ w) ∧ pyInt (p * 256 ^ w) < (256 : Int) ^ w := by
  have hq : 0 ≤ p * 256 ^ w := by positivity
  obtain ⟨g0, g1, g2⟩ := pyInt_nonneg_spec _ hq
  refine ⟨g0, ?_⟩
  have hlt : p * 256 ^ w < 256 ^ w := by
    have hpow : (0 : ℚ) < 256 ^ w := by positivity
    nlinarith
  have : (pyInt (p * 256 ^ w) : ℚ) < ((256 : Int) ^ w : ℚ) := by
    push_cast
    linarith
  exact_mod_cast this

/-- C1: For `0 ≤ p < 1`, `percentile_digest` computes
`floor(p * (max_digest_value + 1))` and returns it as a width-byte big-endian
value; `p = 0` returns the all-zero ceiling normally.  Amended from the
original claim: at `p = 1` the computed value is `max_digest_value + 1`,
which does not fit in `width` bytes, so `to_bytes` raises `OverflowError`
(`none`) instead of returning the all-`0xff` ceiling. -/
theorem percentile_digest_floor_and_edges :
    (∀ p : ℚ, 0 ≤ p → p < 1 → ∃ v : Nat, (v : ℚ) ≤ p * 256 ^ 20 ∧
      p * 256 ^ 20 < (v : ℚ) + 1 ∧
      Hashcoin.percentile_digest 20 p = some (to_bytes 20 v))
    ∧ Hashcoin.percentile_digest 20 0 = some (List.replicate 20 0)
    ∧ Hashcoin.percentile_digest 20 1 = none := by
  refine ⟨?_, ?_, ?_⟩
  · intro p hp0 hp1
    have hq : 0 ≤ p * 256 ^ 20 := by positivity
    obtain ⟨g0, g1, g2⟩ := pyInt_nonneg_spec _ hq
    refine ⟨(pyInt (p * 256 ^ 20)).toNat, ?_, ?_, ?_⟩
    · rw [show (((pyInt (p * 256 ^ 20)).toNat : ℚ)) = ((pyInt (p * 256 ^ 20) : ℚ)) from by
        exact_mod_cast congrArg Int.cast (Int.toNat_of_nonneg g0)]
      exact g1
    · rw [show (((pyInt (p * 256 ^ 20)).toNat : ℚ)) = ((pyInt (p * 256 ^ 20) : ℚ)) from by
        exact_mod_cast congrArg Int.cast (Int.toNat_of_nonneg g0)]
      exact g2
    · rw [percentile_digest_eq, if_pos (pyInt_mul_pow_lt 20 p hp0 hp1)]
  · rw [percentile_digest_eq]
    have h0 : pyInt ((0 : ℚ) * 256 ^ 20) = 0 := by
      rw [zero_mul]
      exact pyInt_unique 0 0 le_rfl (by norm_num) (by norm_num)
    rw [h0, if_pos ⟨le_rfl, by positivity⟩, Int.toNat_zero, to_bytes_zero]
  · rw [percentile_digest_eq]
    have h1 : pyInt ((1 : ℚ) * 256 ^ 20) = 256 ^ 20 := by
      rw [one_mul]
      refine pyInt_unique _ _ (by positivity) (by push_cast; ring_nf; rfl) ?_
      push_cast
      linarith
    rw [h1, if_neg]
    rintro ⟨-, hlt⟩
    exact absurd hlt (by omega)

/-- C1 counterexample: at `percentile = 1` (an allowed edge percentile) the
ceiling computation fails (`OverflowError`, modelled as `none`) instead of
returning the all-`0xff` max digest normally, contrary to the claim. -/
theorem percentile_digest_one_fails : Hashcoin.percentile_digest 20 1 = none := by
  rw [percentile_digest_eq]
  have h1 : pyInt ((1 : ℚ) * 256 ^ 20) = 256 ^ 20 := by
    rw [one_mul]
    refine pyInt_unique _ _ (by positivity) (by push_cast; ring_nf; rfl) ?_
    push_cast
    linarith
  rw [h1, if_neg]
  rintro ⟨-, hlt⟩
  exact absurd hlt (by omega)

/-- C1 witness: the amended theorem applied at `p = 1/2`. -/
theorem percentile_digest_floor_witness :
    ∃ v : Nat, (v : ℚ) ≤ (1 / 2 : ℚ) * 256 ^ 20 ∧
      (1 / 2 : ℚ) * 256 ^ 20 < (v : ℚ) + 1 ∧
      Hashcoin.percentile_digest 20 (1 / 2) = some (to_bytes 20 v) :=
  percentile_digest_floor_and_edges.1 (1 / 2) (by norm_num) (by norm_num)

/-- C8 (amended): a percentile `p > 1`, or `p < 0` with
`p * (max_digest_value + 1) ≤ -1`, makes the ceiling computation fail with
`OverflowError` (`none`); but a negative percentile so small in magnitude
that `p * (max_digest_value + 1)` lies in `(-1, 0)` is silently truncated to
the well-formed all-zero ceiling instead of failing.  In every `some` case
the returned ceiling is a well-formed 20-byte value (never malformed, never
wrapped). -/
theorem percentile_digest_out_of_range :
    (∀ (p : ℚ) (b : List Nat), Hashcoin.percentile_digest 20 p = some b →
      b.length = 20 ∧ ∀ x ∈ b, x < 256)
    ∧ (∀ p : ℚ, 1 < p → Hashcoin.percentile_digest 20 p = none)
    ∧ (∀ p : ℚ, p * 256 ^ 20 ≤ -1 → Hashcoin.percentile_digest 20 p = none)
    ∧ (∀ p : ℚ, p < 0 → -1 < p * 256 ^ 20 →
        Hashcoin.percentile_digest 20 p = some (List.replicate 20 0)) := by
  refine ⟨?_, ?_, ?_, ?_⟩
  · intro p b hb
    rw [percentile_digest_eq] at hb
    by_cases hc : 0 ≤ pyInt (p * 256 ^ 20) ∧ pyInt (p * 256 ^ 20) < (256 : Int) ^ 20
    · rw [if_pos hc] at hb
      obtain rfl : to_bytes 20 (pyInt (p * 256 ^ 20)).toNat = b := by
        injection hb
      exact ⟨to_bytes_length _ _, to_bytes_mem_lt _ _⟩
    · rw [if_neg hc] at hb
      cases hb
  · intro p hp
    rw [percentile_digest_eq]
    have hle : ((256 ^ 20 : Int) : ℚ) ≤ p * 256 ^ 20 := by
      push_cast
      nlinarith [pow_pos (show (0:ℚ) < 256 by norm_num) 20]
    have hge : (256 : Int) ^ 20 ≤ pyInt (p * 256 ^ 20) :=
      pyInt_ge_of_ge _ _ (by positivity) hle
    rw [if_neg]
    rintro ⟨-, hlt⟩
    omega
  · intro p hp
    rw [percentile_digest_eq]
    have hle : pyInt (p * 256 ^ 20) ≤ -1 := pyInt_le_neg_one _ hp
    rw [if_neg]
    rintro ⟨h0, -⟩
    omega
  · intro p hp0 hp1
    rw [percentile_digest_eq]
    have hneg : p * 256 ^ 20 ≤ 0 := by nlinarith [pow_pos (show (0:ℚ) < 256 by norm_num) 20]
    have h0 : pyInt (p * 256 ^ 20) = 0 := pyInt_neg_small _ hp1 hneg
    rw [h0, if_pos ⟨le_rfl, by positivity⟩, Int.toNat_zero, to_bytes_zero]

/-- C8 counterexample: the percentile `-(1/10^60)` is outside `[0, 1]`, yet
the ceiling computation does not fail: it returns the all-zero ceiling. -/
theorem percentile_digest_tiny_negative_no_failure :
    (-(1 / 10 ^ 60) : ℚ) < 0 ∧
      Hashcoin.percentile_digest 20 (-(1 / 10 ^ 60)) = some (List.replicate 20 0) := by
  constructor
  · norm_num
  · rw [percentile_digest_eq]
    have h0 : pyInt ((-(1 / 10 ^ 60) : ℚ) * 256 ^ 20) = 0 := by
      refine pyInt_neg_small _ (by norm_num) (by norm_num)
    rw [h0, if_pos ⟨le_rfl, by positivity⟩, Int.toNat_zero, to_bytes_zero]

/-- C8 witness: the amended theorem applied at `p = 2`. -/
theorem percentile_digest_out_of_range_witness :
    Hashcoin.percentile_digest 20 2 = none :=
  percentile_digest_out_of_range.2.1 2 (by norm_num)

theorem toyHash_good : HashGood toyHash 1 := by
  intro m
  refine ⟨rfl, ?_⟩
  intro x hx
  simp only [toyHash, List.mem_singleton] at hx
  subst hx
  exact Nat.mod_lt _ (by norm_num)

/-- C10: for byte strings of equal fixed width (as all digests of the
configured hash are), the lexicographic comparisons used in the search
loops coincide with comparison of their unsigned big-endian integer
values. -/
theorem bytes_compare_agrees_with_value (a b : List Nat)
    (hlen : a.length = b.length) (ha : ∀ x ∈ a, x < 256)
    (hb : ∀ x ∈ b, x < 256) :
    (bytesLt a b = true ↔ intify a < intify b)
    ∧ (bytesLe a b = true ↔ intify a ≤ intify b) :=
  ⟨bytesLt_iff_intify a b hlen ha hb, bytesLe_iff_intify a b hlen ha hb⟩

/-- C10 witness: the theorem applied to the concrete pair `[1, 2]`, `[1, 3]`. -/
theorem bytes_compare_agrees_with_value_witness :
    (bytesLt [1, 2] [1, 3] = true ↔ intify [1, 2] < intify [1, 3])
    ∧ (bytesLe [1, 2] [1, 3] = true ↔ intify [1, 2] ≤ intify [1, 3]) :=
  bytes_compare_agrees_with_value [1, 2] [1, 3] (by decide) (by decide) (by decide)

/-! ### The threshold-search loop -/

theorem inPercentileLoop_eq_filter (H : List Nat → List Nat) (d md : List Nat) :
    ∀ salts : List (List Nat),
      inPercentileLoop H d md salts =
        (salts.filter fun s => bytesLe (H (d ++ s)) md).map (Hashcoin.mk d)
  | [] => rfl
  | s :: rest => by
    cases hbe : bytesLe (H (d ++ s)) md <;>
      simp [inPercentileLoop, List.filter_cons, hbe,
        inPercentileLoop_eq_filter H d md rest]

theorem inPercentileLoop_mem (H : List Nat → List Nat) (d md : List Nat)
    (salts : List (List Nat)) (t : Hashcoin)
    (ht : t ∈ inPercentileLoop H d md salts) :
    t.data = d ∧ t.salt ∈ salts ∧ bytesLe (H (d ++ t.salt)) md = true := by
  rw [inPercentileLoop_eq_filter] at ht
  simp only [List.mem_map, List.mem_filter] at ht
  obtain ⟨s, ⟨hs, hbe⟩, rfl⟩ := ht
  exact ⟨rfl, hs, hbe⟩

theorem in_percentile_mem (H : List Nat → List Nat) (w : Nat) (p : ℚ)
    (d : List Nat) (n : Nat) (l : List Hashcoin) (t : Hashcoin)
    (hip : Hashcoin.in_percentile H w p d n = some l) (ht : t ∈ l) :
    ∃ md, Hashcoin.percentile_digest w p = some md ∧ t.data = d ∧
      t.salt ∈ firstSalts n ∧ bytesLe (H (d ++ t.salt)) md = true := by
  simp only [Hashcoin.in_percentile] at hip
  cases hmd : Hashcoin.percentile_digest w p with
  | none =>
    simp only [hmd] at hip
    exact Option.noConfusion hip
  | some md =>
    simp only [hmd] at hip
    obtain rfl : inPercentileLoop H d md (firstSalts n) = l := by injection hip
    obtain ⟨h1, h2, h3⟩ := inPercentileLoop_mem H d md _ t ht
    exact ⟨md, rfl, h1, h2, h3⟩

theorem percentile_digest_some_le (w : Nat) (p : ℚ) (md : List Nat)
    (hp0 : 0 ≤ p) (h : Hashcoin.percentile_digest w p = some md) :
    md.length = w ∧ (∀ x ∈ md, x < 256) ∧ ((intify md : ℚ) ≤ p * 256 ^ w) := by
  rw [percentile_digest_eq] at h
  by_cases hc : 0 ≤ pyInt (p * 256 ^ w) ∧ pyInt (p * 256 ^ w) < (256 : Int) ^ w
  · rw [if_pos hc] at h
    obtain ⟨hc0, hc1⟩ := hc
    obtain rfl : to_bytes w (pyInt (p * 256 ^ w)).toNat = md := by injection h
    have hcast : ((256 : Int) ^ w) = ((256 ^ w : Nat) : Int) := by push_cast; ring
    have hlt : (pyInt (p * 256 ^ w)).toNat < 256 ^ w := by
      rw [hcast] at hc1
      omega
    refine ⟨to_bytes_length _ _, to_bytes_mem_lt _ _, ?_⟩
    rw [intify_to_bytes _ _ hlt]
    have hq : 0 ≤ p * 256 ^ w := by positivity
    obtain ⟨g0, g1, g2⟩ := pyInt_nonneg_spec _ hq
    calc ((pyInt (p * 256 ^ w)).toNat : ℚ) = ((pyInt (p * 256 ^ w) : ℚ)) := by
          exact_mod_cast congrArg Int.cast (Int.toNat_of_nonneg g0)
      _ ≤ p * 256 ^ w := g1
  · rw [if_neg hc] at h
    cases h

/-- C2: for every valid target percentile `p ∈ [0, 1]` and every payload,
whenever threshold search (`new` / `mine`) returns a first token, that
token's `percentile()` is at most `p`. -/
theorem new_token_percentile_le (H : List Nat → List Nat) (w : Nat)
    (hH : HashGood H w) (p : ℚ) (hp0 : 0 ≤ p) (_hp1 : p ≤ 1)
    (d : List Nat) (n : Nat) (t : Hashcoin)
    (ht : Hashcoin.new H w p d n = some t) :
    Hashcoin.percentile H w t ≤ p := by
  cases hip : Hashcoin.in_percentile H w p d n with
  | none =>
    simp only [Hashcoin.new, hip] at ht
    exact Option.noConfusion ht
  | some l =>
    simp only [Hashcoin.new, hip] at ht
    have htl : t ∈ l := List.mem_of_mem_head? ht
    obtain ⟨md, hmd, hdata, hsalt, hbe⟩ := in_percentile_mem H w p d n l t hip htl
    obtain ⟨hmdlen, hmdbytes, hmdle⟩ := percentile_digest_some_le w p md hp0 hmd
    have hdg := hH (d ++ t.salt)
    have hle : intify (H (d ++ t.salt)) ≤ intify md :=
      (bytesLe_iff_intify _ _ (by rw [hdg.1, hmdlen]) hdg.2 hmdbytes).mp hbe
    rw [Hashcoin.percentile, Hashcoin.digest, hdata, cast_max_digest_value]
    rw [div_le_iff₀ (by positivity)]
    calc (intify (H (d ++ t.salt)) : ℚ) ≤ (intify md : ℚ) := by exact_mod_cast hle
      _ ≤ p * 256 ^ w := hmdle

theorem percentile_digest_half_width_one :
    Hashcoin.percentile_digest 1 (1 / 2) = some [128] := by
  rw [percentile_digest_eq]
  have h128 : pyInt ((1 / 2 : ℚ) * 256 ^ 1) = 128 :=
    pyInt_unique _ 128 (by norm_num) (by norm_num) (by norm_num)
  rw [h128, if_pos ⟨by norm_num, by norm_num⟩]
  decide

theorem new_toy_evaluates :
    Hashcoin.new toyHash 1 (1 / 2) [] 1 = some (Hashcoin.mk [] []) := by
  have h1 : Hashcoin.in_percentile toyHash 1 (1 / 2) [] 1
      = some [Hashcoin.mk [] []] := by
    simp only [Hashcoin.in_percentile, percentile_digest_half_width_one]
    decide
  simp only [Hashcoin.new, h1]
  decide

/-- C2 witness: the theorem applied to the toy one-byte hash at `p = 1/2`,
payload `b''`, where the very first salt already qualifies. -/
theorem new_token_percentile_le_witness :
    Hashcoin.percentile toyHash 1 (Hashcoin.mk [] []) ≤ (1 / 2 : ℚ) :=
  new_token_percentile_le toyHash 1 toyHash_good (1 / 2) (by norm_num)
    (by norm_num) [] 1 (Hashcoin.mk [] []) new_toy_evaluates

theorem percentile_digest_some_wf (w : Nat) (p : ℚ) (md : List Nat)
    (h : Hashcoin.percentile_digest w p = some md) :
    md.length = w ∧ ∀ x ∈ md, x < 256 := by
  rw [percentile_digest_eq] at h
  by_cases hc : 0 ≤ pyInt (p * 256 ^ w) ∧ pyInt (p * 256 ^ w) < (256 : Int) ^ w
  · rw [if_pos hc] at h
    obtain rfl : to_bytes w (pyInt (p * 256 ^ w)).toNat = md := by injection h
    exact ⟨to_bytes_length _ _, to_bytes_mem_lt _ _⟩
  · rw [if_neg hc] at h
    cases h

theorem bool_eq_decide (b : Bool) (P : Prop) [Decidable P] (h : b = true ↔ P) :
    b = decide P := by
  by_cases hp : P
  · simp [hp, h.mpr hp]
  · have hb : b ≠ true := fun hbt => hp (h.mp hbt)
    simp only [decide_eq_false hp]
    cases b
    · rfl
    · exact absurd rfl hb

/-- C4: when the ceiling computation succeeds, `in_percentile p d` produces,
in salt-enumeration order, exactly the tokens `(d, salt)` whose digest value
is at most the ceiling value — the filter of the enumerated salts — and
`new p d` is the first element of that sequence. -/
theorem in_percentile_exactly_filter (H : List Nat → List Nat) (w : Nat)
    (hH : HashGood H w) (p : ℚ) (d : List Nat) (n : Nat)
    (md : List Nat) (l : List Hashcoin)
    (hmd : Hashcoin.percentile_digest w p = some md)
    (hip : Hashcoin.in_percentile H w p d n = some l) :
    l = ((firstSalts n).filter fun s =>
          decide (intify (H (d ++ s)) ≤ intify md)).map (Hashcoin.mk d)
    ∧ Hashcoin.new H w p d n = l.head? := by
  obtain ⟨hmdlen, hmdbytes⟩ := percentile_digest_some_wf w p md hmd
  simp only [Hashcoin.in_percentile, hmd] at hip
  obtain rfl : inPercentileLoop H d md (firstSalts n) = l := by injection hip
  constructor
  · rw [inPercentileLoop_eq_filter]
    congr 1
    apply List.filter_congr
    intro s _
    exact bool_eq_decide _ _
      (bytesLe_iff_intify _ _ (by rw [(hH (d ++ s)).1, hmdlen]) (hH (d ++ s)).2 hmdbytes)
  · simp only [Hashcoin.new, Hashcoin.in_percentile, hmd]

theorem in_percentile_toy_two :
    Hashcoin.in_percentile toyHash 1 (1 / 2) [] 2
      = some [Hashcoin.mk [] [], Hashcoin.mk [] [0]] := by
  simp only [Hashcoin.in_percentile, percentile_digest_half_width_one]
  decide

/-- C4 witness: the theorem applied to the toy one-byte hash at `p = 1/2`,
payload `b''`, observing the first two salts. -/
theorem in_percentile_exactly_filter_witness :
    [Hashcoin.mk [] [], Hashcoin.mk [] [0]]
      = ((firstSalts 2).filter fun s =>
          decide (intify (toyHash ([] ++ s)) ≤ intify [128])).map (Hashcoin.mk [])
    ∧ Hashcoin.new toyHash 1 (1 / 2) [] 2
      = [Hashcoin.mk [] [], Hashcoin.mk [] [0]].head? :=
  in_percentile_exactly_filter toyHash 1 toyHash_good (1 / 2) [] 2 [128]
    [Hashcoin.mk [] [], Hashcoin.mk [] [0]]
    percentile_digest_half_width_one in_percentile_toy_two

/-! ### The refine loop -/

theorem refineLoop_spec (H : List Nat → List Nat) (w : Nat) (hH : HashGood H w)
    (d : List Nat) (salts : List (List Nat)) :
    ∀ mind : List Nat, mind.length = w → (∀ x ∈ mind, x < 256) →
      (∀ t ∈ refineLoop H d mind salts,
        t.data = d ∧ intify (H (d ++ t.salt)) < intify mind)
      ∧ (refineLoop H d mind salts).Pairwise
          (fun a b => intify (H (d ++ b.salt)) < intify (H (d ++ a.salt))) := by
  induction salts with
  | nil =>
    intro mind _ _
    constructor
    · intro t ht
      simp [refineLoop] at ht
    · simp [refineLoop]
  | cons s rest ih =>
    intro mind hlen hbytes
    have hdg := hH (d ++ s)
    cases hlt : bytesLt (H (d ++ s)) mind with
    | false =>
      simp only [refineLoop, hlt, Bool.false_eq_true, if_false]
      exact ih mind hlen hbytes
    | true =>
      have hslt : intify (H (d ++ s)) < intify mind :=
        (bytesLt_iff_intify _ _ (by rw [hdg.1, hlen]) hdg.2 hbytes).mp hlt
      obtain ⟨ih1, ih2⟩ := ih (H (d ++ s)) hdg.1 hdg.2
      simp only [refineLoop, hlt, if_true]
      constructor
      · intro t ht
        rcases List.mem_cons.mp ht with rfl | htm
        · exact ⟨rfl, hslt⟩
        · obtain ⟨h1, h2⟩ := ih1 t htm
          exact ⟨h1, lt_trans h2 hslt⟩
      · refine List.Pairwise.cons ?_ ih2
        intro b hb
        exact (ih1 b hb).2

/-- C5: for every payload, `refine` yields a strictly decreasing digest
sequence: starting from the implicit ceiling `max_digest`, a token is
emitted only when its digest is strictly below the current ceiling, so every
emitted token's digest value is strictly smaller than every previously
emitted token's digest value (in particular consecutive ones decrease), and
every emitted digest is strictly below the `max_digest` value. -/
theorem refine_strictly_decreasing (H : List Nat → List Nat) (w : Nat)
    (hH : HashGood H w) (d : List Nat) (n : Nat) :
    ((Hashcoin.refine H w d n).Pairwise
      (fun a b => intify (b.digest H) < intify (a.digest H)))
    ∧ ∀ t ∈ Hashcoin.refine H w d n,
        t.data = d ∧ intify (t.digest H) < intify (Hashcoin.max_digest w) := by
  have hmax_len : (Hashcoin.max_digest w).length = w := by
    simp [Hashcoin.max_digest]
  have hmax_bytes : ∀ x ∈ Hashcoin.max_digest w, x < 256 := by
    intro x hx
    have : x = 255 := List.eq_of_mem_replicate hx
    omega
  obtain ⟨h1, h2⟩ := refineLoop_spec H w hH d (firstSalts n)
    (Hashcoin.max_digest w) hmax_len hmax_bytes
  constructor
  · refine List.Pairwise.imp_of_mem ?_ h2
    intro a b ha hb hr
    rw [Hashcoin.digest, Hashcoin.digest, (h1 a ha).1, (h1 b hb).1]
    exact hr
  · intro t ht
    obtain ⟨hd, hlt⟩ := h1 t ht
    refine ⟨hd, ?_⟩
    rw [Hashcoin.digest, hd]
    exact hlt

/-- C5 witness: the theorem applied to the toy one-byte hash, payload `b''`,
observing the first two salts; the loop emits exactly one token there. -/
theorem refine_strictly_decreasing_witness :
    Hashcoin.refine toyHash 1 [] 2 = [Hashcoin.mk [] []]
    ∧ ((Hashcoin.refine toyHash 1 [] 2).Pairwise
        (fun a b => intify (b.digest toyHash) < intify (a.digest toyHash))) :=
  ⟨by decide, (refine_strictly_decreasing toyHash 1 toyHash_good [] 2).1⟩

/-! ### The best-of-n loop -/

theorem bytesLe_refl : ∀ a : List Nat, bytesLe a a = true
  | [] => rfl
  | x :: xs => by simp [bytesLe, bytesLe_refl xs]

theorem intify_ge_of_bytesLt_false (a b : List Nat) (hlen : a.length = b.length)
    (ha : ∀ x ∈ a, x < 256) (hb : ∀ x ∈ b, x < 256)
    (h : bytesLt a b = false) : intify b ≤ intify a := by
  have hiff := bytesLt_iff_intify a b hlen ha hb
  by_contra hcon
  have hlt : intify a < intify b := by omega
  have := hiff.mpr hlt
  rw [h] at this
  cases this

theorem bestLoop_data (H : List Nat → List Nat) (d : List Nat)
    (salts : List (List Nat)) :
    ∀ mind mins : List Nat, (bestLoop H d mind mins salts).data = d := by
  induction salts with
  | nil => intro mind mins; rfl
  | cons s rest ih =>
    intro mind mins
    cases hlt : bytesLt (H (d ++ s)) mind with
    | true => simp only [bestLoop, hlt, if_true]; exact ih _ _
    | false => simp only [bestLoop, hlt, Bool.false_eq_true, if_false]; exact ih _ _

theorem bestLoop_le (H : List Nat → List Nat) (w : Nat) (hH : HashGood H w)
    (d : List Nat) (salts : List (List Nat)) :
    ∀ mind mins : List Nat, mind.length = w → (∀ x ∈ mind, x < 256) →
      bytesLe (H (d ++ mins)) mind = true →
      intify (H (d ++ (bestLoop H d mind mins salts).salt)) ≤ intify mind
      ∧ ∀ s ∈ salts,
          intify (H (d ++ (bestLoop H d mind mins salts).salt)) ≤ intify (H (d ++ s)) := by
  induction salts with
  | nil =>
    intro mind mins hlen hbytes hle
    refine ⟨?_, by simp⟩
    simp only [bestLoop]
    exact (bytesLe_iff_intify _ _ (by rw [(hH (d ++ mins)).1, hlen])
      (hH (d ++ mins)).2 hbytes).mp hle
  | cons s rest ih =>
    intro mind mins hlen hbytes hle
    have hdg := hH (d ++ s)
    cases hlt : bytesLt (H (d ++ s)) mind with
    | true =>
      have hslt : intify (H (d ++ s)) < intify mind :=
        (bytesLt_iff_intify _ _ (by rw [hdg.1, hlen]) hdg.2 hbytes).mp hlt
      obtain ⟨g1, g2⟩ := ih (H (d ++ s)) s hdg.1 hdg.2 (bytesLe_refl _)
      simp only [bestLoop, hlt, if_true]
      refine ⟨le_trans g1 (le_of_lt hslt), ?_⟩
      intro x hx
      rcases List.mem_cons.mp hx with rfl | hm
      · exact g1
      · exact g2 x hm
    | false =>
      have hsge : intify mind ≤ intify (H (d ++ s)) :=
        intify_ge_of_bytesLt_false _ _ (by rw [hdg.1, hlen]) hdg.2 hbytes hlt
      obtain ⟨g1, g2⟩ := ih mind mins hlen hbytes hle
      simp only [bestLoop, hlt, Bool.false_eq_true, if_false]
      refine ⟨g1, ?_⟩
      intro x hx
      rcases List.mem_cons.mp hx with rfl | hm
      · exact le_trans g1 hsge
      · exact g2 x hm

theorem bestLoop_first (H : List Nat → List Nat) (w : Nat) (hH : HashGood H w)
    (d : List Nat) (salts : List (List Nat)) :
    ∀ mind mins : List Nat, mind.length = w → (∀ x ∈ mind, x < 256) →
      (bestLoop H d mind mins salts).salt = mins
      ∨ ∃ l1 l2, salts = l1 ++ (bestLoop H d mind mins salts).salt :: l2
          ∧ intify (H (d ++ (bestLoop H d mind mins salts).salt)) < intify mind
          ∧ ∀ s ∈ l1,
              intify (H (d ++ (bestLoop H d mind mins salts).salt)) < intify (H (d ++ s)) := by
  induction salts with
  | nil =>
    intro mind mins _ _
    left
    rfl
  | cons s rest ih =>
    intro mind mins hlen hbytes
    have hdg := hH (d ++ s)
    cases hlt : bytesLt (H (d ++ s)) mind with
    | true =>
      have hslt : intify (H (d ++ s)) < intify mind :=
        (bytesLt_iff_intify _ _ (by rw [hdg.1, hlen]) hdg.2 hbytes).mp hlt
      simp only [bestLoop, hlt, if_true]
      rcases ih (H (d ++ s)) s hdg.1 hdg.2 with hsalt | ⟨l1, l2, heq, hc2, hc3⟩
      · right
        refine ⟨[], rest, ?_, ?_, by simp⟩
        · rw [hsalt]
          simp
        · rw [hsalt]
          exact hslt
      · right
        refine ⟨s :: l1, l2, ?_, lt_trans hc2 hslt, ?_⟩
        · rw [List.cons_append, ← heq]
        · intro x hx
          rcases List.mem_cons.mp hx with rfl | hm
          · exact hc2
          · exact hc3 x hm
    | false =>
      have hsge : intify mind ≤ intify (H (d ++ s)) :=
        intify_ge_of_bytesLt_false _ _ (by rw [hdg.1, hlen]) hdg.2 hbytes hlt
      simp only [bestLoop, hlt, Bool.false_eq_true, if_false]
      rcases ih mind mins hlen hbytes with hsalt | ⟨l1, l2, heq, hc2, hc3⟩
      · left
        exact hsalt
      · right
        refine ⟨s :: l1, l2, by rw [List.cons_append, ← heq], hc2, ?_⟩
        intro x hx
        rcases List.mem_cons.mp hx with rfl | hm
        · exact lt_of_lt_of_le hc2 hsge
        · exact hc3 x hm

theorem bytesLe_max : ∀ b : List Nat, (∀ x ∈ b, x < 256) →
    bytesLe b (List.replicate b.length 255) = true
  | [], _ => rfl
  | x :: xs, h => by
    have hx : x < 256 := h x (by simp)
    have ih := bytesLe_max xs fun y hy => h y (by simp [hy])
    by_cases hx255 : x < 255
    · simp [bytesLe, List.replicate_succ, hx255]
    · have : x = 255 := by omega
      subst this
      simp [bytesLe, List.replicate_succ, ih]

theorem nthSalt_zero : nthSalt 0 = [] := by decide

theorem firstSalts_succ_head (m : Nat) :
    firstSalts (m + 1) = [] :: (List.range m).map (fun i => nthSalt (i + 1)) := by
  rw [firstSalts, List.range_succ_eq_map, List.map_cons, nthSalt_zero, List.map_map]
  rfl

/-- C6: `best n d` returns a token for payload `d` whose digest value is at
most the digest value of every one of the first `n` enumerated salts, and
(for `n ≥ 1`) its salt occurs in the first `n` salts with every
earlier-enumerated salt having a strictly larger digest — so a later equal
digest never replaces the running minimum. -/
theorem best_min_of_first_n (H : List Nat → List Nat) (w : Nat)
    (hH : HashGood H w) (n : Nat) (d : List Nat) :
    (Hashcoin.best H w n d).data = d
    ∧ (∀ s ∈ firstSalts n,
        intify ((Hashcoin.best H w n d).digest H) ≤ intify (H (d ++ s)))
    ∧ (1 ≤ n → ∃ l1 l2, firstSalts n = l1 ++ (Hashcoin.best H w n d).salt :: l2
        ∧ ∀ s ∈ l1,
            intify ((Hashcoin.best H w n d).digest H) < intify (H (d ++ s))) := by
  have hmax_len : (Hashcoin.max_digest w).length = w := by
    simp [Hashcoin.max_digest]
  have hmax_bytes : ∀ x ∈ Hashcoin.max_digest w, x < 256 := by
    intro x hx
    have : x = 255 := List.eq_of_mem_replicate hx
    omega
  have hdata : (Hashcoin.best H w n d).data = d := bestLoop_data H d _ _ _
  have hdig : (Hashcoin.best H w n d).digest H
      = H (d ++ (Hashcoin.best H w n d).salt) := by
    rw [Hashcoin.digest, hdata]
  have hempty_le : bytesLe (H (d ++ [])) (Hashcoin.max_digest w) = true := by
    have h := bytesLe_max (H (d ++ [])) (hH (d ++ [])).2
    rwa [(hH (d ++ [])).1] at h
  refine ⟨hdata, ?_, ?_⟩
  · intro s hs
    rw [hdig]
    exact (bestLoop_le H w hH d (firstSalts n) (Hashcoin.max_digest w) []
      hmax_len hmax_bytes hempty_le).2 s hs
  · intro hn
    rcases bestLoop_first H w hH d (firstSalts n) (Hashcoin.max_digest w) []
        hmax_len hmax_bytes with hsalt | ⟨l1, l2, heq, _, hc3⟩
    · obtain ⟨m, rfl⟩ : ∃ m, n = m + 1 := ⟨n - 1, by omega⟩
      refine ⟨[], (List.range m).map (fun i => nthSalt (i + 1)), ?_, by simp⟩
      rw [firstSalts_succ_head]
      have hbest : Hashcoin.best H w (m + 1) d
          = bestLoop H d (Hashcoin.max_digest w) [] (firstSalts (m + 1)) := rfl
      rw [hbest, hsalt]
      rfl
    · refine ⟨l1, l2, heq, ?_⟩
      intro s hs
      rw [hdig]
      exact hc3 s hs

/-- C6 witness: the theorem applied to the toy one-byte hash with `n = 2`
and payload `b''`; the returned token and the minimality over the first two
salts are evaluated concretely. -/
theorem best_min_of_first_n_witness :
    Hashcoin.best toyHash 1 2 [] = Hashcoin.mk [] []
    ∧ ∀ s ∈ firstSalts 2,
        intify ((Hashcoin.best toyHash 1 2 []).digest toyHash)
          ≤ intify (toyHash ([] ++ s)) :=
  ⟨by decide, (best_min_of_first_n toyHash 1 toyHash_good 2 []).2.1⟩

/-- C7: `best(0, d)` returns the token on the empty salt, without the salt
ever having been evaluated against any acceptance rule: the result is the
same for every hash function and width (nothing was hashed or compared). -/
theorem best_zero_empty_salt (H1 H2 : List Nat → List Nat) (w1 w2 : Nat)
    (d : List Nat) :
    Hashcoin.best H1 w1 0 d = Hashcoin.mk d []
    ∧ Hashcoin.best H1 w1 0 d = Hashcoin.best H2 w2 0 d :=
  ⟨rfl, rfl⟩

/-! ### The salt enumeration order -/

theorem byte_strings_length (L : Nat) : (byte_strings L).length = 256 ^ L := by
  simp [byte_strings]

theorem iter_bytes_upto_length (L : Nat) :
    (iter_bytes_upto L).length = ((List.range L).map fun j => 256 ^ j).sum := by
  rw [iter_bytes_upto, List.length_flatten, List.map_map]
  congr 1
  apply List.map_congr_left
  intro j _
  exact byte_strings_length j

theorem sum_pow_ge (L : Nat) : L ≤ ((List.range L).map fun j => 256 ^ j).sum := by
  induction L with
  | zero => simp
  | succ L ih =>
    rw [List.range_succ, List.map_append, List.sum_append]
    have : 1 ≤ 256 ^ L := Nat.one_le_pow _ _ (by norm_num)
    simp only [List.map_cons, List.map_nil, List.sum_cons, List.sum_nil]
    omega

theorem iter_bytes_upto_succ (L : Nat) :
    iter_bytes_upto (L + 1) = iter_bytes_upto L ++ byte_strings L := by
  rw [iter_bytes_upto, iter_bytes_upto, List.range_succ, List.map_append,
    List.flatten_append]
  simp

theorem iter_bytes_upto_mono (L M : Nat) (h : L ≤ M) :
    ∃ t, iter_bytes_upto M = iter_bytes_upto L ++ t := by
  induction M with
  | zero =>
    obtain rfl : L = 0 := by omega
    exact ⟨[], rfl⟩
  | succ M ih =>
    rcases Nat.lt_or_ge L (M + 1) with hlt | hge
    · obtain ⟨t, ht⟩ := ih (by omega)
      exact ⟨t ++ byte_strings M, by rw [iter_bytes_upto_succ, ht, List.append_assoc]⟩
    · obtain rfl : L = M + 1 := by omega
      exact ⟨[], by simp⟩

theorem upto_getD_agree (L M k : Nat) (h : L ≤ M)
    (hk : k < (iter_bytes_upto L).length) :
    (iter_bytes_upto M).getD k [] = (iter_bytes_upto L).getD k [] := by
  obtain ⟨t, ht⟩ := iter_bytes_upto_mono L M h
  rw [ht]
  exact List.getD_append _ _ _ _ hk

theorem nthSalt_eq_getD (L k : Nat) (h : k < (iter_bytes_upto L).length) :
    nthSalt k = (iter_bytes_upto L).getD k [] := by
  have hk1 : k < (iter_bytes_upto (k + 1)).length := by
    rw [iter_bytes_upto_length]
    have := sum_pow_ge (k + 1)
    omega
  rcases le_total (k + 1) L with hle | hle
  · rw [nthSalt, upto_getD_agree (k + 1) L k hle hk1]
  · rw [nthSalt, upto_getD_agree L (k + 1) k hle h]

theorem firstSalts_eq_take (n : Nat) :
    firstSalts n = (iter_bytes_upto n).take n := by
  have hlen : n ≤ (iter_bytes_upto n).length := by
    rw [iter_bytes_upto_length]
    exact sum_pow_ge n
  apply List.ext_getElem
  · simp only [firstSalts, List.length_map, List.length_range, List.length_take]
    omega
  · intro i h1 h2
    simp only [firstSalts, List.length_map, List.length_range] at h1
    rw [List.getElem_take]
    simp only [firstSalts, List.getElem_map, List.getElem_range]
    rw [← List.getD_eq_getElem _ [] (by omega)]
    exact nthSalt_eq_getD n i (by omega)

theorem upto_pairwise (L : Nat) : (iter_bytes_upto L).Pairwise saltRel := by
  rw [iter_bytes_upto, List.pairwise_flatten]
  constructor
  · intro l' hl'
    simp only [List.mem_map, List.mem_range] at hl'
    obtain ⟨j, _, rfl⟩ := hl'
    rw [byte_strings, List.pairwise_map]
    refine List.Pairwise.imp_of_mem ?_ (List.pairwise_lt_range _)
    intro a b ha hb hab
    rw [List.mem_range] at ha hb
    right
    refine ⟨by rw [to_bytes_length, to_bytes_length], ?_⟩
    rw [intify_to_bytes j a ha, intify_to_bytes j b hb]
    exact hab
  · rw [List.pairwise_map]
    refine List.Pairwise.imp_of_mem ?_ (List.pairwise_lt_range _)
    intro j1 j2 _ _ hj x hx y hy
    simp only [byte_strings, List.mem_map, List.mem_range] at hx hy
    obtain ⟨a, _, rfl⟩ := hx
    obtain ⟨b, _, rfl⟩ := hy
    left
    rw [to_bytes_length, to_bytes_length]
    exact hj

theorem saltRel_ne (a b : List Nat) (h : saltRel a b) : a ≠ b := by
  rintro rfl
  rcases h with h | ⟨-, h⟩ <;> omega

theorem count_eq_one_of_nodup_mem (l : List (List Nat)) (b : List Nat)
    (hnd : l.Nodup) (hmem : b ∈ l) : l.count b = 1 := by
  induction l with
  | nil => cases hmem
  | cons x xs ih =>
    rw [List.count_cons]
    rcases List.mem_cons.mp hmem with rfl | hm
    · have hnotin : b ∉ xs := (List.nodup_cons.mp hnd).1
      rw [List.count_eq_zero.mpr hnotin]
      simp
    · have hne : x ≠ b := fun h => (List.nodup_cons.mp hnd).1 (h ▸ hm)
      rw [ih (List.nodup_cons.mp hnd).2 hm]
      simp [hne]

theorem upto_count_one (b : List Nat) (L : Nat) (hb : ∀ x ∈ b, x < 256)
    (hlen : b.length < L) : (iter_bytes_upto L).count b = 1 := by
  have hnd : (iter_bytes_upto L).Nodup :=
    List.Pairwise.imp_of_mem (fun ha hb h => saltRel_ne _ _ h) (upto_pairwise L)
  have hmem : b ∈ iter_bytes_upto L := by
    rw [iter_bytes_upto, List.mem_flatten]
    refine ⟨byte_strings b.length, ?_, ?_⟩
    · exact List.mem_map.mpr ⟨b.length, List.mem_range.mpr hlen, rfl⟩
    · rw [byte_strings]
      exact List.mem_map.mpr
        ⟨intify b, List.mem_range.mpr (intify_lt b hb), to_bytes_intify b hb⟩
  exact count_eq_one_of_nodup_mem _ _ hnd hmem

/-- C3: the salt enumerator yields byte strings in the strict total order
"shorter first, then by big-endian value" (so they are pairwise distinct),
it yields every byte string of length below the enumerated rounds exactly
once, the empty string comes first, and for every `n` the first `n` salts
are pairwise distinct and sorted by (length, numeric value). -/
theorem salts_enumeration_order :
    (∀ L, (iter_bytes_upto L).Pairwise saltRel)
    ∧ (∀ (b : List Nat) (L : Nat), (∀ x ∈ b, x < 256) → b.length < L →
        (iter_bytes_upto L).count b = 1)
    ∧ (∀ L, 0 < L → (iter_bytes_upto L).head? = some [])
    ∧ (∀ n, (firstSalts n).Pairwise saltRel) := by
  refine ⟨upto_pairwise, upto_count_one, ?_, ?_⟩
  · intro L hL
    obtain ⟨t, ht⟩ := iter_bytes_upto_mono 1 L hL
    rw [ht, show iter_bytes_upto 1 = [[]] from rfl]
    rfl
  · intro n
    rw [firstSalts_eq_take]
    exact List.Pairwise.sublist (List.take_sublist n _) (upto_pairwise n)

/-- C3 witness: the theorem applied concretely — the single-byte string
`[7]` occurs exactly once among the salts of length below 2. -/
theorem salts_enumeration_order_witness :
    (iter_bytes_upto 2).count [7] = 1 :=
  salts_enumeration_order.2.1 [7] 2 (by decide) (by decide)

/-! ### Restartability of the shared, memoized salt stream -/

theorem consumeAlone_live (n : Nat) : ∀ k : Nat,
    consumeAlone k RCursor.live n = (List.range' k n).map nthSalt := by
  induction n with
  | zero => intro k; rfl
  | succ n ih =>
    intro k
    rw [List.range'_succ, List.map_cons, ← ih (k + 1)]
    rfl

theorem consumeAlone_replay (n : Nat) : ∀ k i : Nat, i ≤ k →
    consumeAlone k (RCursor.replay i) n = (List.range' i n).map nthSalt := by
  induction n with
  | zero => intro k i _; rfl
  | succ n ih =>
    intro k i hik
    by_cases hi : i < k
    · rw [List.range'_succ, List.map_cons, ← ih k (i + 1) (by omega)]
      simp [consumeAlone, rstep, hi]
    · obtain rfl : i = k := by omega
      rw [List.range'_succ, List.map_cons, ← consumeAlone_live n (i + 1)]
      simp [consumeAlone, rstep]

/-- C9 (amended): a fresh consumer of the shared memoized salt stream that
pulls `n` items with no interleaved consumption by another consumer observes
exactly the first `n` salts of the pure enumeration, regardless of how much
of the stream (`k` items) was already consumed and cached by others; hence
two calls consumed without interleaving observe byte-for-byte identical
sequences.  The original claim fails when consumption is interleaved. -/
theorem salts_restartable_when_not_interleaved (k n : Nat) :
    consumeAlone k (RCursor.replay 0) n = (List.range n).map nthSalt := by
  rw [consumeAlone_replay n k 0 (Nat.zero_le k), List.range_eq_range']

/-- C9 counterexample: with the interleaved schedule A, B, B, A the two
consumers each observe two salts, but the observed sequences differ
(`A` sees `b'', b'\x01'`, skipping `b'\x00'`, while `B` sees
`b'', b'\x00'`), so two calls are not independent of call order and
interleaving. -/
theorem interleaved_consumers_diverge :
    (runSched [true, false, false, true]).outA.length = 2
    ∧ (runSched [true, false, false, true]).outB.length = 2
    ∧ (runSched [true, false, false, true]).outA
        ≠ (runSched [true, false, false, true]).outB := by
  refine ⟨by decide, by decide, by decide⟩
